import Mathlib

/-!
# Case-conversion utilities: a shallow embedding

This file embeds the string case-conversion core of the repository:

* `toCamelCase` and `toDotCase` from `src/refined_prompt.js`
  (two-strategy tokenizer: split on runs of non-alphanumeric characters
  when any separator is present, otherwise a left-to-right boundary scan
  mirroring the regex
  `([A-Z]+(?=[A-Z][a-z]))|([A-Z]?[a-z]+)|([A-Z]+)|([0-9]+)`),
* `toKebabCase` from `src/unnamed/part_000`
  (trim, split on whitespace runs, join with `-`, lowercase),
* the simpler `toCamelCase` of `src/basic_prompt.js` (here `basicToCamelCase`),
  which returns `""` for non-string input instead of throwing.

Strings are modelled as `List Char` internally, with `String` wrappers at
the public boundary.  JavaScript case mapping (`toLowerCase`/`toUpperCase`)
is modelled on the ASCII letter ranges and is the identity elsewhere; all
characters reaching a case map in these functions are ASCII alphanumerics,
so this is faithful on every reachable path.  Dynamically-typed call sites
are modelled by `JSValue`; a thrown `TypeError`/`Error` is `Except.error`
carrying the message from the source.
-/

namespace CaseConv

/-- The regex class `[A-Z]` (code points 65–90). -/
def isUpperC (c : Char) : Bool := decide (65 ≤ c.toNat ∧ c.toNat ≤ 90)

/-- The regex class `[a-z]` (code points 97–122). -/
def isLowerC (c : Char) : Bool := decide (97 ≤ c.toNat ∧ c.toNat ≤ 122)

/-- The regex class `[0-9]` (code points 48–57). -/
def isDigitC (c : Char) : Bool := decide (48 ≤ c.toNat ∧ c.toNat ≤ 57)

/-- The regex class `[A-Za-z0-9]`: ASCII alphanumeric. -/
def isAlnumC (c : Char) : Bool := isUpperC c || isLowerC c || isDigitC c

/-- Code points of the ECMAScript white-space and line-terminator set, as
matched by `\s` and removed by `String.prototype.trim`. -/
def wsCodes : List Nat :=
  [9, 10, 11, 12, 13, 32, 160, 0x1680,
   0x2000, 0x2001, 0x2002, 0x2003, 0x2004, 0x2005, 0x2006, 0x2007,
   0x2008, 0x2009, 0x200a, 0x2028, 0x2029, 0x202f, 0x205f, 0x3000, 0xfeff]

/-- JavaScript whitespace test (the class `\s`). -/
def isWsC (c : Char) : Bool := wsCodes.contains c.toNat

/-- ASCII case mapping of `String.prototype.toLowerCase`:
uppercase letters move down 32 code points, everything else is fixed. -/
def jsToLower (c : Char) : Char :=
  if h : isUpperC c = true then
    Char.ofNatAux (c.toNat + 32)
      (Or.inl (by simp only [isUpperC, decide_eq_true_eq] at h; omega))
  else c

/-- ASCII case mapping of `String.prototype.toUpperCase`:
lowercase letters move up 32 code points, everything else is fixed. -/
def jsToUpper (c : Char) : Char :=
  if h : isLowerC c = true then
    Char.ofNatAux (c.toNat - 32)
      (Or.inl (by simp only [isLowerC, decide_eq_true_eq] at h; omega))
  else c

/-- `String.prototype.trim`: drop leading and trailing whitespace. -/
def trimWs (l : List Char) : List Char :=
  ((l.dropWhile isWsC).reverse.dropWhile isWsC).reverse

/-- Fueled splitter for `str.split(re).filter(Boolean)` where `re` matches
maximal runs of characters failing `p`: emits the maximal runs of
characters satisfying `p`, in order.  The fuel only needs to be at least
the length of the list; each step consumes at least one character. -/
def splitRunsF (p : Char → Bool) : Nat → List Char → List (List Char)
  | 0, _ => []
  | _ + 1, [] => []
  | fuel + 1, c :: cs =>
    if p c then
      ((c :: cs).takeWhile p) :: splitRunsF p fuel ((c :: cs).dropWhile p)
    else
      splitRunsF p fuel (cs.dropWhile (fun x => !p x))

/-- Split a character list into the maximal runs satisfying `p`
(dropping the separator runs, as `.filter(Boolean)` does). -/
def splitRuns (p : Char → Bool) (l : List Char) : List (List Char) :=
  splitRunsF p l.length l

/-- `Array.prototype.join(sep)`. -/
def joinSep (sep : List Char) : List (List Char) → List Char
  | [] => []
  | [p] => p
  | p :: ps => p ++ sep ++ joinSep sep ps

/-- Fueled left-to-right scan of
`/([A-Z]+(?=[A-Z][a-z]))|([A-Z]?[a-z]+)|([A-Z]+)|([0-9]+)/g` via
`String.prototype.match`: at each position the first alternative that
matches wins (greedily, with backtracking for the lookahead of the first
alternative); a position where none matches is skipped.  The first
alternative `[A-Z]+(?=[A-Z][a-z])` matches exactly when the maximal
uppercase run from the current position has length `m ≥ 2` and the
character right after the run is lowercase, in which case backtracking
settles on the first `m - 1` uppercase characters. -/
def boundaryTokF : Nat → List Char → List (List Char)
  | 0, _ => []
  | _ + 1, [] => []
  | fuel + 1, c :: cs =>
    let l := c :: cs
    let m := (l.takeWhile isUpperC).length
    if 2 ≤ m && isLowerC ((l.drop m).headD ' ') then
      l.take (m - 1) :: boundaryTokF fuel (l.drop (m - 1))
    else if isUpperC c && isLowerC (cs.headD ' ') then
      (c :: cs.takeWhile isLowerC) :: boundaryTokF fuel (cs.dropWhile isLowerC)
    else if isLowerC c then
      (l.takeWhile isLowerC) :: boundaryTokF fuel (l.dropWhile isLowerC)
    else if isUpperC c then
      (l.takeWhile isUpperC) :: boundaryTokF fuel (l.dropWhile isUpperC)
    else if isDigitC c then
      (l.takeWhile isDigitC) :: boundaryTokF fuel (l.dropWhile isDigitC)
    else
      boundaryTokF fuel cs

/-- The boundary-detection tokenization of `str.match(tokenRe)`. -/
def boundaryTok (l : List Char) : List (List Char) :=
  boundaryTokF l.length l

/-- The shared tokenization of `toCamelCase`/`toDotCase` on the trimmed,
non-empty input: if any character is outside `[A-Za-z0-9]`
(`hasSeparators`), split on separator runs; otherwise run the boundary
scan, falling back to the whole string when `match` returns `null`. -/
def tokensOf (str : List Char) : List (List Char) :=
  if str.any (fun c => !isAlnumC c) then
    splitRuns isAlnumC str
  else
    match boundaryTok str with
    | [] => [str]
    | ts => ts

/-- `/^[0-9]+$/.test(p)`: non-empty, all digits. -/
def isDigitsTok (s : List Char) : Bool := !s.isEmpty && s.all isDigitC

/-- The `capitalize` helper of `toCamelCase`:
`s.length === 0 ? '' : s[0].toUpperCase() + s.slice(1).toLowerCase()`. -/
def capitalize (s : List Char) : List Char :=
  match s with
  | [] => []
  | c :: cs => jsToUpper c :: cs.map jsToLower

/-- How `toCamelCase` renders a non-first token: digit tokens verbatim,
others capitalized. -/
def renderCamelRest (p : List Char) : List Char :=
  if isDigitsTok p then p else capitalize p

/-- The LowerCamel renderer (lines building `first + rest` in
`toCamelCase`): first token fully lowercased, later tokens through
`renderCamelRest`, concatenated with no separator. -/
def renderCamel (parts : List (List Char)) : List Char :=
  match parts with
  | [] => []
  | p :: ps => p.map jsToLower ++ joinSep [] (ps.map renderCamelRest)

/-- The DotCase renderer: `parts.map(p => p.toLowerCase()).join('.')`. -/
def renderDot (parts : List (List Char)) : List Char :=
  joinSep ['.'] (parts.map (fun p => p.map jsToLower))

/-- `toCamelCase` of `src/refined_prompt.js` on its string argument. -/
def camelChars (input : List Char) : List Char :=
  let str := trimWs input
  if str.isEmpty then []
  else renderCamel (tokensOf str)

/-- `toDotCase` of `src/refined_prompt.js` on its string argument. -/
def dotChars (input : List Char) : List Char :=
  let str := trimWs input
  if str.isEmpty then []
  else renderDot (tokensOf str)

/-- Negation of the class `\s`: a character that is part of a word when
splitting on whitespace runs. -/
def wordC (c : Char) : Bool := !isWsC c

/-- `toKebabCase` of `src/unnamed/part_000` on its string argument:
`input.trim().split(/\s+/).join('-').toLowerCase()` (splitting on `\s+`
keeps exactly the maximal runs of non-whitespace characters). -/
def kebabChars (input : List Char) : List Char :=
  (joinSep ['-'] (splitRuns wordC (trimWs input))).map jsToLower

/-- `toCamelCase` of `src/basic_prompt.js` on its string argument:
trim, split on non-alphanumeric runs, lowercase the first word, and for
later words uppercase the first character of the lowercased word. -/
def basicCamelChars (input : List Char) : List Char :=
  match splitRuns isAlnumC (trimWs input) with
  | [] => []
  | p :: ps =>
    p.map jsToLower ++
      joinSep [] (ps.map (fun w =>
        match w.map jsToLower with
        | [] => []
        | c :: cs => jsToUpper c :: cs))

/-- Public `toCamelCase : string -> string` (refined converter). -/
def toCamelCase (s : String) : String := (camelChars s.data).asString

/-- Public `toDotCase : string -> string`. -/
def toDotCase (s : String) : String := (dotChars s.data).asString

/-- Public `toKebabCase : string -> string`. -/
def toKebabCase (s : String) : String := (kebabChars s.data).asString

/-- Public `toCamelCase : string -> string` (basic converter). -/
def basicToCamelCase (s : String) : String := (basicCamelChars s.data).asString

/-- The JavaScript values the spec's error-handling contract ranges over:
`null`, `undefined`, numbers, plain objects, arrays, and strings. -/
inductive JSValue where
  | null
  | undef
  | num (n : Int)
  | obj
  | arr
  | str (s : String)
deriving DecidableEq

/-- The `typeof` operator on the modelled values. -/
def typeOf : JSValue → String
  | .null => "object"
  | .undef => "undefined"
  | .num _ => "number"
  | .obj => "object"
  | .arr => "object"
  | .str _ => "string"

/-- `typeof v === 'string'`. -/
def isStr : JSValue → Bool
  | .str _ => true
  | _ => false

/-- `toCamelCase` (refined) at a dynamically-typed call site: the two
guard clauses throw `TypeError` before any processing. -/
def toCamelCaseJS : JSValue → Except String String
  | .null => .error "toCamelCase: input must be a string, received null/undefined"
  | .undef => .error "toCamelCase: input must be a string, received null/undefined"
  | .str s => .ok (toCamelCase s)
  | v => .error ("toCamelCase: expected string but received " ++ typeOf v)

/-- `toDotCase` at a dynamically-typed call site. -/
def toDotCaseJS : JSValue → Except String String
  | .null => .error "toDotCase: input must be a string, received null/undefined"
  | .undef => .error "toDotCase: input must be a string, received null/undefined"
  | .str s => .ok (toDotCase s)
  | v => .error ("toDotCase: expected string but received " ++ typeOf v)

/-- `toKebabCase` at a dynamically-typed call site: one guard clause
throwing `Error` on anything that is not a string. -/
def toKebabCaseJS : JSValue → Except String String
  | .str s => .ok (toKebabCase s)
  | _ => .error "Invalid input: expected a non-null string."

/-- `toCamelCase` (basic) at a dynamically-typed call site:
`if (typeof str !== 'string') return '';` — no exception is thrown. -/
def basicToCamelCaseJS : JSValue → Except String String
  | .str s => .ok (basicToCamelCase s)
  | _ => .ok ""

/-- Is the call an exception? -/
def isErr (r : Except String String) : Bool :=
  match r with
  | .error _ => true
  | .ok _ => false

/-- The KebabCase contract as the specification words it, claim-side, for
comparison with the source-side `kebabChars`: each maximal run of
whitespace characters becomes a single `-` and every other character
stays in place (lowercasing is applied afterwards, and trimming before). -/
def collapseWs : List Char → List Char
  | [] => []
  | c :: cs =>
    if isWsC c then
      match cs with
      | [] => ['-']
      | c' :: _ => if isWsC c' then collapseWs cs else '-' :: collapseWs cs
    else c :: collapseWs cs

/-! ## Character-level lemmas -/

theorem toNat_ofNatAux (n : Nat) (h : n.isValidChar) :
    (Char.ofNatAux n h).toNat = n := rfl

theorem jsToLower_toNat_pos {c : Char} (h : isUpperC c = true) :
    (jsToLower c).toNat = c.toNat + 32 := by
  simp only [jsToLower, dif_pos h, toNat_ofNatAux]

theorem jsToLower_eq_self {c : Char} (h : isUpperC c = false) :
    jsToLower c = c := by
  simp only [jsToLower, h]
  simp

theorem jsToUpper_toNat_pos {c : Char} (h : isLowerC c = true) :
    (jsToUpper c).toNat = c.toNat - 32 := by
  simp only [jsToUpper, dif_pos h, toNat_ofNatAux]

theorem jsToUpper_eq_self {c : Char} (h : isLowerC c = false) :
    jsToUpper c = c := by
  simp only [jsToUpper, h]
  simp

theorem isAlnumC_jsToLower {c : Char} (h : isAlnumC c = true) :
    isAlnumC (jsToLower c) = true := by
  by_cases hu : isUpperC c = true
  · have ht := jsToLower_toNat_pos hu
    simp only [isUpperC, decide_eq_true_eq] at hu
    simp only [isAlnumC, isUpperC, isLowerC, isDigitC, Bool.or_eq_true,
      decide_eq_true_eq, ht]
    omega
  · rw [jsToLower_eq_self (by simpa using hu)]
    exact h

theorem isAlnumC_jsToUpper {c : Char} (h : isAlnumC c = true) :
    isAlnumC (jsToUpper c) = true := by
  by_cases hl : isLowerC c = true
  · have ht := jsToUpper_toNat_pos hl
    simp only [isLowerC, decide_eq_true_eq] at hl
    simp only [isAlnumC, isUpperC, isLowerC, isDigitC, Bool.or_eq_true,
      decide_eq_true_eq, ht]
    omega
  · rw [jsToUpper_eq_self (by simpa using hl)]
    exact h

theorem isUpperC_of_isLowerC {c : Char} (h : isLowerC c = true) :
    isUpperC c = false := by
  simp only [isLowerC, decide_eq_true_eq] at h
  simp only [isUpperC, decide_eq_false_iff_not]
  omega

/-! ## List-level helper lemmas -/

theorem takeWhile_all_append {p : Char → Bool} :
    ∀ (us rest : List Char), (∀ c ∈ us, p c = true) →
      (us ++ rest).takeWhile p = us ++ rest.takeWhile p := by
  intro us rest h
  induction us with
  | nil => simp
  | cons a as ih =>
    have ha : p a = true := h a (by simp)
    simp only [List.cons_append, List.takeWhile_cons_of_pos ha]
    rw [ih (fun c hc => h c (by simp [hc]))]

theorem all_take_of_le_takeWhile {q : Char → Bool} :
    ∀ (l : List Char) (k : Nat), k ≤ (l.takeWhile q).length →
      (l.take k).all q = true := by
  intro l
  induction l with
  | nil => intro k _; simp
  | cons c cs ih =>
    intro k hk
    by_cases hc : q c = true
    · cases k with
      | zero => simp
      | succ k =>
        simp only [List.takeWhile_cons_of_pos hc, List.length_cons,
          Nat.succ_le_succ_iff] at hk
        have := ih k hk
        simp only [List.take_succ_cons, List.all_cons, hc, Bool.true_and]
        exact this
    · simp only [List.takeWhile_cons_of_neg (by simpa using hc),
        List.length_nil, Nat.le_zero] at hk
      simp [hk]

theorem all_joinSep {q : Char → Bool} {sep : List Char} (hsep : sep.all q = true) :
    ∀ ps : List (List Char), (∀ t ∈ ps, t.all q = true) →
      (joinSep sep ps).all q = true := by
  intro ps
  induction ps with
  | nil => intro _; simp [joinSep]
  | cons p ps ih =>
    intro h
    cases ps with
    | nil => simpa [joinSep] using h p (by simp)
    | cons p' ps' =>
      have h1 : p.all q = true := h p (by simp)
      have h2 := ih (fun t ht => h t (List.mem_cons_of_mem _ ht))
      simp [joinSep, List.all_append, hsep, h1, h2]

theorem joinSep_eq_intercalate (sep : List Char) :
    ∀ ps : List (List Char), joinSep sep ps = List.intercalate sep ps := by
  intro ps
  induction ps with
  | nil => simp [joinSep, List.intercalate]
  | cons p ps ih =>
    cases ps with
    | nil => simp [joinSep, List.intercalate]
    | cons p' ps' =>
      simp only [joinSep, List.intercalate, List.intersperse_cons_cons,
        List.flatten_cons] at ih ⊢
      simp [ih, List.append_assoc]

theorem trimWs_eq_nil {l : List Char} (h : l.all isWsC = true) :
    trimWs l = [] := by
  have h1 : l.dropWhile isWsC = [] := by
    rw [List.dropWhile_eq_nil_iff]
    exact fun x hx => List.all_eq_true.mp h x hx
  simp [trimWs, h1]

theorem splitRunsF_no_empty (p : Char → Bool) :
    ∀ (fuel : Nat) (l : List Char),
      (splitRunsF p fuel l).all (fun t => !t.isEmpty) = true := by
  intro fuel
  induction fuel with
  | zero => intro l; simp [splitRunsF]
  | succ fuel ih =>
    intro l
    cases l with
    | nil => simp [splitRunsF]
    | cons c cs =>
      by_cases hc : p c = true
      · simp only [splitRunsF, if_pos hc, List.all_cons, Bool.and_eq_true]
        refine ⟨?_, ih _⟩
        simp [List.takeWhile_cons_of_pos hc]
      · simp only [splitRunsF, if_neg hc]
        exact ih _

theorem boundaryTokF_fuel :
    ∀ (f1 f2 : Nat) (l : List Char), l.length ≤ f1 → l.length ≤ f2 →
      boundaryTokF f1 l = boundaryTokF f2 l := by
  intro f1
  induction f1 with
  | zero =>
    intro f2 l h1 _
    have hl : l = [] := List.eq_nil_of_length_eq_zero (Nat.le_zero.mp h1)
    subst hl
    cases f2 <;> rfl
  | succ f1 ih =>
    intro f2 l h1 h2
    cases l with
    | nil => cases f2 <;> rfl
    | cons c cs =>
      cases f2 with
      | zero => simp at h2
      | succ f2 =>
        have h1' : cs.length ≤ f1 := by simpa using h1
        have h2' : cs.length ≤ f2 := by simpa using h2
        have hdw : ∀ q : Char → Bool, (cs.dropWhile q).length ≤ cs.length :=
          fun q => (List.dropWhile_sublist q).length_le
        simp only [boundaryTokF]
        split_ifs with hb1 hb2 hb3 hb4 hb5
        · have hm : 2 ≤ ((c :: cs).takeWhile isUpperC).length := by
            simp only [Bool.and_eq_true, decide_eq_true_eq] at hb1
            exact hb1.1
          have hlen :
              ((c :: cs).drop (((c :: cs).takeWhile isUpperC).length - 1)).length
                ≤ cs.length := by
            simp only [List.length_drop, List.length_cons]
            omega
          rw [ih f2 _ (le_trans hlen h1') (le_trans hlen h2')]
        · rw [ih f2 _ (le_trans (hdw _) h1') (le_trans (hdw _) h2')]
        · rw [List.dropWhile_cons_of_pos hb3,
            ih f2 _ (le_trans (hdw _) h1') (le_trans (hdw _) h2')]
        · rw [List.dropWhile_cons_of_pos hb4,
            ih f2 _ (le_trans (hdw _) h1') (le_trans (hdw _) h2')]
        · rw [List.dropWhile_cons_of_pos hb5,
            ih f2 _ (le_trans (hdw _) h1') (le_trans (hdw _) h2')]
        · rw [ih f2 cs h1' h2']

theorem splitRunsF_nil (p : Char → Bool) : ∀ f, splitRunsF p f [] = [] := by
  intro f; cases f <;> rfl

theorem splitRunsF_fuel (p : Char → Bool) :
    ∀ (f1 f2 : Nat) (l : List Char), l.length ≤ f1 → l.length ≤ f2 →
      splitRunsF p f1 l = splitRunsF p f2 l := by
  intro f1
  induction f1 with
  | zero =>
    intro f2 l h1 _
    have hl : l = [] := List.eq_nil_of_length_eq_zero (Nat.le_zero.mp h1)
    subst hl
    cases f2 <;> rfl
  | succ f1 ih =>
    intro f2 l h1 h2
    cases l with
    | nil => cases f2 <;> rfl
    | cons c cs =>
      cases f2 with
      | zero => simp at h2
      | succ f2 =>
        have h1' : cs.length ≤ f1 := by simpa using h1
        have h2' : cs.length ≤ f2 := by simpa using h2
        have hdw : ∀ (q : Char → Bool) (xs : List Char),
            (xs.dropWhile q).length ≤ xs.length :=
          fun q xs => (List.dropWhile_sublist q).length_le
        simp only [splitRunsF]
        split_ifs with hc
        · rw [List.dropWhile_cons_of_pos hc,
            ih f2 _ (le_trans (hdw _ _) h1') (le_trans (hdw _ _) h2')]
        · rw [ih f2 _ (le_trans (hdw _ _) h1') (le_trans (hdw _ _) h2')]

theorem collapseWs_word_cons (c : Char) (cs : List Char) (hc : isWsC c = false) :
    collapseWs (c :: cs) = c :: collapseWs cs := by
  conv_lhs => rw [collapseWs.eq_def]
  simp [hc]

theorem collapseWs_ws_ws (b b' : Char) (t : List Char)
    (hb : isWsC b = true) (hb' : isWsC b' = true) :
    collapseWs (b :: b' :: t) = collapseWs (b' :: t) := by
  conv_lhs => rw [collapseWs.eq_def]
  simp [hb, hb']

theorem collapseWs_ws_word (b d : Char) (t : List Char)
    (hb : isWsC b = true) (hd : isWsC d = false) :
    collapseWs (b :: d :: t) = '-' :: collapseWs (d :: t) := by
  conv_lhs => rw [collapseWs.eq_def]
  simp [hb, hd]

theorem collapseWs_word_append (rest : List Char) :
    ∀ w : List Char, (∀ c ∈ w, isWsC c = false) →
      collapseWs (w ++ rest) = w ++ collapseWs rest := by
  intro w
  induction w with
  | nil => intro _; simp
  | cons c w' ih =>
    intro hw
    have hc : isWsC c = false := hw c (by simp)
    rw [List.cons_append, collapseWs_word_cons _ _ hc,
      ih (fun x hx => hw x (by simp [hx])), List.cons_append]

theorem collapseWs_of_all_word (l : List Char) (h : ∀ c ∈ l, isWsC c = false) :
    collapseWs l = l := by
  have h0 := collapseWs_word_append [] l h
  simpa [collapseWs] using h0

theorem collapseWs_ws_run :
    ∀ (s : List Char) (d : Char) (l2 : List Char), s ≠ [] →
      (∀ c ∈ s, isWsC c = true) → isWsC d = false →
      collapseWs (s ++ d :: l2) = '-' :: collapseWs (d :: l2) := by
  intro s
  induction s with
  | nil => intro d l2 hs _ _; exact absurd rfl hs
  | cons b s' ih =>
    intro d l2 _ hall hd
    have hb : isWsC b = true := hall b (by simp)
    cases s' with
    | nil =>
      rw [List.cons_append, List.nil_append, collapseWs_ws_word b d l2 hb hd]
    | cons b' s'' =>
      have hb' : isWsC b' = true := hall b' (by simp)
      rw [List.cons_append, List.cons_append, collapseWs_ws_ws b b' _ hb hb',
        ← List.cons_append]
      exact ih d l2 (by simp) (fun c hc => hall c (by simp [hc])) hd

theorem head?_dropWhile_false (p : Char → Bool) (l : List Char) :
    ∀ c, (l.dropWhile p).head? = some c → p c = false := by
  intro c hc
  have h0 := List.head?_dropWhile_not p l
  rw [hc] at h0
  exact h0

theorem trimWs_head_not_ws (l : List Char) :
    ∀ c, (trimWs l).head? = some c → isWsC c = false := by
  intro c hc
  simp only [trimWs, List.head?_reverse] at hc
  obtain ⟨pre, hpre⟩ :=
    List.dropWhile_suffix (l := (l.dropWhile isWsC).reverse) isWsC
  have hgl : ((l.dropWhile isWsC).reverse).getLast? = some c := by
    rw [← hpre, List.getLast?_append, hc]
    rfl
  rw [List.getLast?_reverse] at hgl
  exact head?_dropWhile_false isWsC l c hgl

theorem trimWs_getLast_not_ws (l : List Char) :
    ∀ c, (trimWs l).getLast? = some c → isWsC c = false := by
  intro c hc
  simp only [trimWs, List.getLast?_reverse] at hc
  exact head?_dropWhile_false isWsC _ c hc

theorem joinSep_single (sep w : List Char) : joinSep sep [w] = w := rfl

theorem joinSep_cons_cons (sep w t : List Char) (ts : List (List Char)) :
    joinSep sep (w :: t :: ts) = w ++ sep ++ joinSep sep (t :: ts) := rfl

theorem joinSep_splitRuns_eq_collapseWs :
    ∀ (n : Nat) (l : List Char), l.length ≤ n →
      (∀ c, l.head? = some c → isWsC c = false) →
      (∀ c, l.getLast? = some c → isWsC c = false) →
      joinSep ['-'] (splitRuns wordC l) = collapseWs l := by
  intro n
  induction n with
  | zero =>
    intro l h1 _ _
    have hl : l = [] := List.eq_nil_of_length_eq_zero (Nat.le_zero.mp h1)
    subst hl
    rfl
  | succ n ih =>
    intro l hlen hh hla
    cases l with
    | nil => rfl
    | cons c cs =>
      have hc : isWsC c = false := hh c rfl
      have hpc : wordC c = true := by simp [wordC, hc]
      have hw_all : ∀ x ∈ (c :: cs).takeWhile wordC, isWsC x = false := by
        intro x hx
        have hx2 := List.all_eq_true.mp
          (List.all_takeWhile (p := wordC) (l := c :: cs)) x hx
        simpa [wordC] using hx2
      have hsplit1 : splitRuns wordC (c :: cs) =
          ((c :: cs).takeWhile wordC) ::
            splitRunsF wordC cs.length ((c :: cs).dropWhile wordC) := by
        simp only [splitRuns, List.length_cons, splitRunsF, if_pos hpc]
      have hwr : (c :: cs).takeWhile wordC ++ (c :: cs).dropWhile wordC =
          c :: cs := List.takeWhile_append_dropWhile wordC (c :: cs)
      cases hr : (c :: cs).dropWhile wordC with
      | nil =>
        rw [hr, List.append_nil] at hwr
        rw [hsplit1, hr, splitRunsF_nil, joinSep_single, hwr,
          collapseWs_of_all_word (c :: cs) (by rw [← hwr]; exact hw_all)]
      | cons a r' =>
        have ha : isWsC a = true := by
          have h0 := head?_dropWhile_false wordC (c :: cs) a (by rw [hr]; rfl)
          simpa [wordC] using h0
        have hlen_ar : r'.length + 1 ≤ cs.length := by
          have h1 : ((c :: cs).dropWhile wordC).length ≤ cs.length := by
            rw [List.dropWhile_cons_of_pos hpc]
            exact (List.dropWhile_sublist _).length_le
          rw [hr] at h1
          simpa using h1
        obtain ⟨k, hk⟩ : ∃ k, cs.length = k + 1 :=
          ⟨cs.length - 1, by omega⟩
        have hpredEq : (fun x => !wordC x) = isWsC := by
          funext x
          simp [wordC]
        have hna : ¬(wordC a = true) := by simp [wordC, ha]
        have hsplit2 : splitRunsF wordC cs.length (a :: r') =
            splitRuns wordC (r'.dropWhile isWsC) := by
          rw [hk]
          simp only [splitRunsF, if_neg hna]
          rw [hpredEq]
          simp only [splitRuns]
          apply splitRunsF_fuel
          · exact le_trans (List.dropWhile_sublist _).length_le (by omega)
          · exact le_refl _
        have hprel : r'.takeWhile isWsC ++ r'.dropWhile isWsC = r' :=
          List.takeWhile_append_dropWhile isWsC r'
        have hpre_all : ∀ x ∈ a :: r'.takeWhile isWsC, isWsC x = true := by
          intro x hx
          rcases List.mem_cons.mp hx with rfl | hx2
          · exact ha
          · exact List.all_eq_true.mp List.all_takeWhile x hx2
        cases hl2 : r'.dropWhile isWsC with
        | nil =>
          exfalso
          have hr'all : ∀ x ∈ r', isWsC x = true :=
            List.dropWhile_eq_nil_iff.mp hl2
          have hlast : (c :: cs).getLast? = (a :: r').getLast? := by
            conv_lhs => rw [← hwr]
            rw [hr, List.getLast?_append,
              List.getLast?_eq_getLast (a :: r') (by simp)]
            rfl
          have hglmem := List.getLast_mem (l := a :: r') (by simp)
          have hlw : isWsC ((a :: r').getLast (by simp)) = true := by
            rcases List.mem_cons.mp hglmem with h0 | h0
            · rw [h0]
              exact ha
            · exact hr'all _ h0
          have hfalse := hla _ (by
            rw [hlast]
            exact List.getLast?_eq_getLast (a :: r') (by simp))
          rw [hfalse] at hlw
          exact Bool.false_ne_true hlw
        | cons d l2 =>
          have hd : isWsC d = false :=
            head?_dropWhile_false isWsC r' d (by rw [hl2]; rfl)
          have hdecomp : c :: cs =
              ((c :: cs).takeWhile wordC) ++
                ((a :: r'.takeWhile isWsC) ++ (d :: l2)) := by
            conv_lhs => rw [← hwr]
            rw [hr]
            congr 1
            simp only [List.cons_append, List.cons.injEq, true_and]
            rw [← hl2, hprel]
          have hIH : joinSep ['-'] (splitRuns wordC (d :: l2)) =
              collapseWs (d :: l2) := by
            apply ih (d :: l2)
            · have h1 : (d :: l2).length ≤ r'.length := by
                rw [← hl2]
                exact (List.dropWhile_sublist _).length_le
              have h2 : cs.length ≤ n := by simpa using hlen
              simp only [List.length_cons] at h1 ⊢
              omega
            · intro x hx
              simp only [List.head?_cons, Option.some.injEq] at hx
              rw [← hx]
              exact hd
            · intro x hx
              apply hla
              rw [hdecomp, List.getLast?_append, List.getLast?_append, hx]
              rfl
          have hts : splitRuns wordC (d :: l2) =
              ((d :: l2).takeWhile wordC) ::
                splitRunsF wordC l2.length ((d :: l2).dropWhile wordC) := by
            simp only [splitRuns, List.length_cons, splitRunsF,
              if_pos (show wordC d = true by simp [wordC, hd])]
          rw [hsplit1, hr, hsplit2, hl2, hts, joinSep_cons_cons, ← hts, hIH]
          conv_rhs => rw [hdecomp]
          rw [collapseWs_word_append _ _ hw_all,
            collapseWs_ws_run (a :: r'.takeWhile isWsC) d l2 (by simp)
              hpre_all hd]
          simp

theorem alnum_of_upper {c : Char} (h : isUpperC c = true) :
    isAlnumC c = true := by
  simp [isAlnumC, h]

theorem alnum_of_lower {c : Char} (h : isLowerC c = true) :
    isAlnumC c = true := by
  simp [isAlnumC, h]

theorem alnum_of_digit {c : Char} (h : isDigitC c = true) :
    isAlnumC c = true := by
  simp [isAlnumC, h]

theorem all_mono {q r : Char → Bool} (hqr : ∀ c, q c = true → r c = true) :
    ∀ {t : List Char}, t.all q = true → t.all r = true := by
  intro t h
  rw [List.all_eq_true] at h ⊢
  exact fun x hx => hqr x (h x hx)

theorem splitRunsF_tokens_all (p : Char → Bool) :
    ∀ (fuel : Nat) (l : List Char), ∀ t ∈ splitRunsF p fuel l,
      t.all p = true := by
  intro fuel
  induction fuel with
  | zero => intro l t ht; simp [splitRunsF] at ht
  | succ fuel ih =>
    intro l t ht
    cases l with
    | nil => simp [splitRunsF] at ht
    | cons c cs =>
      by_cases hc : p c = true
      · rw [show splitRunsF p (fuel + 1) (c :: cs) =
            ((c :: cs).takeWhile p) ::
              splitRunsF p fuel ((c :: cs).dropWhile p) from
          by simp only [splitRunsF, if_pos hc]] at ht
        rcases List.mem_cons.mp ht with rfl | ht2
        · exact List.all_takeWhile
        · exact ih _ t ht2
      · rw [show splitRunsF p (fuel + 1) (c :: cs) =
            splitRunsF p fuel (cs.dropWhile (fun x => !p x)) from
          by simp only [splitRunsF, if_neg hc]] at ht
        exact ih _ t ht

theorem boundaryTokF_tokens_all :
    ∀ (fuel : Nat) (l : List Char), ∀ t ∈ boundaryTokF fuel l,
      t.all isAlnumC = true := by
  intro fuel
  induction fuel with
  | zero => intro l t ht; simp [boundaryTokF] at ht
  | succ fuel ih =>
    intro l t ht
    cases l with
    | nil => simp [boundaryTokF] at ht
    | cons c cs =>
      simp only [boundaryTokF] at ht
      split_ifs at ht with h1 h2 h3 h4 h5
      · rcases List.mem_cons.mp ht with rfl | ht2
        · exact all_mono (fun c => alnum_of_upper)
            (all_take_of_le_takeWhile _ _ (Nat.sub_le _ _))
        · exact ih _ t ht2
      · rcases List.mem_cons.mp ht with rfl | ht2
        · have hcu : isUpperC c = true := by
            simp only [Bool.and_eq_true] at h2
            exact h2.1
          simp only [List.all_cons, Bool.and_eq_true]
          exact ⟨alnum_of_upper hcu,
            all_mono (fun c => alnum_of_lower) List.all_takeWhile⟩
        · exact ih _ t ht2
      · rcases List.mem_cons.mp ht with rfl | ht2
        · exact all_mono (fun c => alnum_of_lower) List.all_takeWhile
        · exact ih _ t ht2
      · rcases List.mem_cons.mp ht with rfl | ht2
        · exact all_mono (fun c => alnum_of_upper) List.all_takeWhile
        · exact ih _ t ht2
      · rcases List.mem_cons.mp ht with rfl | ht2
        · exact all_mono (fun c => alnum_of_digit) List.all_takeWhile
        · exact ih _ t ht2
      · exact ih _ t ht

theorem tokensOf_tokens_all (str : List Char) :
    ∀ t ∈ tokensOf str, t.all isAlnumC = true := by
  intro t ht
  by_cases hsep : str.any (fun c => !isAlnumC c) = true
  · rw [tokensOf, if_pos hsep] at ht
    exact splitRunsF_tokens_all isAlnumC _ _ t ht
  · rw [tokensOf, if_neg hsep] at ht
    have hsep2 : str.any (fun c => !isAlnumC c) = false := by
      simpa using hsep
    have hstr : str.all isAlnumC = true := by
      rw [List.all_eq_true]
      intro x hx
      have h0 := List.any_eq_false.mp hsep2 x hx
      simpa using h0
    cases hb : boundaryTok str with
    | nil =>
      rw [hb] at ht
      simp only [List.mem_singleton] at ht
      subst ht
      exact hstr
    | cons w ws =>
      rw [hb] at ht
      have ht2 : t ∈ boundaryTok str := by
        rw [hb]
        exact ht
      exact boundaryTokF_tokens_all str.length str t ht2

theorem all_alnum_map_jsToLower {t : List Char} (h : t.all isAlnumC = true) :
    (t.map jsToLower).all isAlnumC = true := by
  rw [List.all_eq_true] at h ⊢
  intro x hx
  obtain ⟨y, hy, rfl⟩ := List.mem_map.mp hx
  exact isAlnumC_jsToLower (h y hy)

theorem renderCamelRest_all_alnum {t : List Char}
    (h : t.all isAlnumC = true) :
    (renderCamelRest t).all isAlnumC = true := by
  rw [renderCamelRest]
  split_ifs with hd
  · exact h
  · cases t with
    | nil => simp [capitalize]
    | cons c cs =>
      simp only [List.all_cons, Bool.and_eq_true] at h
      simp only [capitalize, List.all_cons, Bool.and_eq_true]
      exact ⟨isAlnumC_jsToUpper h.1, all_alnum_map_jsToLower h.2⟩

theorem camelChars_all_alnum (input : List Char) :
    (camelChars input).all isAlnumC = true := by
  simp only [camelChars]
  split_ifs with he
  · simp
  · cases hts : tokensOf (trimWs input) with
    | nil => simp [renderCamel]
    | cons p ps =>
      simp only [renderCamel, List.all_append, Bool.and_eq_true]
      constructor
      · exact all_alnum_map_jsToLower
          (tokensOf_tokens_all _ p (by rw [hts]; simp))
      · apply all_joinSep (by simp)
        intro t ht
        obtain ⟨y, hy, rfl⟩ := List.mem_map.mp ht
        exact renderCamelRest_all_alnum
          (tokensOf_tokens_all _ y (by rw [hts]; simp [hy]))

theorem dotChars_all_dotok (input : List Char) :
    (dotChars input).all (fun c => isAlnumC c || decide (c = '.')) = true := by
  simp only [dotChars]
  split_ifs with he
  · simp
  · rw [renderDot]
    apply all_joinSep (by decide)
    intro t ht
    obtain ⟨y, hy, rfl⟩ := List.mem_map.mp ht
    refine all_mono (q := isAlnumC)
      (r := fun c => isAlnumC c || decide (c = '.'))
      (fun c hc => by simp [hc]) ?_
    exact all_alnum_map_jsToLower (tokensOf_tokens_all _ y hy)

/-! ## Claim theorems -/

/-- C1 (counterexample): the basic-prompt `toCamelCase`, cited by the claim,
does not raise on the non-string input `42`; it returns the empty string,
contradicting "never returns a (possibly empty) string result". -/
theorem basicToCamelCase_num42_returns_empty :
    basicToCamelCaseJS (JSValue.num 42) = Except.ok "" := rfl

/-- C1 (amended): for every non-string input, the refined `toCamelCase`,
`toDotCase`, and `toKebabCase` raise an `InvalidInputError` before any
processing and never return a string result; the basic-prompt `toCamelCase`
instead returns the empty string. -/
theorem nonstring_input_behavior (v : JSValue) (h : isStr v = false) :
    isErr (toCamelCaseJS v) = true ∧ isErr (toDotCaseJS v) = true ∧
    isErr (toKebabCaseJS v) = true ∧ basicToCamelCaseJS v = Except.ok "" := by
  cases v <;> simp_all [isStr, isErr, toCamelCaseJS, toDotCaseJS,
    toKebabCaseJS, basicToCamelCaseJS]

/-- C1 (witness): the amended claim evaluated at the number `42`. -/
theorem nonstring_input_behavior_witness :
    isStr (JSValue.num 42) = false ∧
    (isErr (toCamelCaseJS (JSValue.num 42)) = true ∧
     isErr (toDotCaseJS (JSValue.num 42)) = true ∧
     isErr (toKebabCaseJS (JSValue.num 42)) = true ∧
     basicToCamelCaseJS (JSValue.num 42) = Except.ok "") :=
  ⟨by decide, nonstring_input_behavior (JSValue.num 42) (by decide)⟩

/-- C2 (counterexample): the claim as stated — any non-alphanumeric
character in the raw input forces the separator split — fails at
`" abcDef "`: the raw input contains non-alphanumeric characters (the
spaces), yet after trimming the strategy test sees none, the
boundary-detection scan runs, and the tokens are `["abc", "Def"]` (output
`"abcDef"`), not the separator-split tokens of the raw input
(`["abcDef"]`, which would render as `"abcdef"`). -/
theorem separator_claim_fails_on_padded_input :
    (String.data " abcDef ").any (fun c => !isAlnumC c) = true ∧
    (splitRuns isAlnumC (String.data " abcDef ")).map List.asString =
      ["abcDef"] ∧
    (tokensOf (trimWs (String.data " abcDef "))).map List.asString =
      ["abc", "Def"] ∧
    toCamelCase " abcDef " = "abcDef" := by
  refine ⟨by decide, by decide, by decide, by decide⟩

/-- C2 (amended): the strategy test runs on the trimmed input — when the
trimmed input contains any non-alphanumeric character, the tokenization
both converters use is exactly the separator split (the
boundary-detection scan is never applied), and on `"userId_2"` it yields
the tokens `["userId", "2"]`. -/
theorem separator_split_exclusive (s : String)
    (h : (trimWs s.data).any (fun c => !isAlnumC c) = true) :
    tokensOf (trimWs s.data) = splitRuns isAlnumC (trimWs s.data) ∧
    (tokensOf (trimWs (String.data "userId_2"))).map List.asString =
      ["userId", "2"] := by
  refine ⟨?_, by decide⟩
  simp [tokensOf, h]

/-- C2 (witness): the amended claim evaluated at `"userId_2"`. -/
theorem separator_split_exclusive_witness :
    (trimWs (String.data "userId_2")).any (fun c => !isAlnumC c) = true ∧
    (tokensOf (trimWs (String.data "userId_2")) =
       splitRuns isAlnumC (trimWs (String.data "userId_2")) ∧
     (tokensOf (trimWs (String.data "userId_2"))).map List.asString =
       ["userId", "2"]) :=
  ⟨by decide, separator_split_exclusive "userId_2" (by decide)⟩

/-- C3: in the boundary-detection tokenizer, an uppercase run of length two
or more whose final uppercase letter is followed by a lowercase letter is
split so that the run up to but not including that final uppercase letter
becomes one token; consequently
`toCamelCase "XMLHttpRequest" = "xmlHttpRequest"` and
`toDotCase "XMLHttpRequest" = "xml.http.request"`. -/
theorem acronym_boundary_rule (us : List Char) (u lc : Char) (rest : List Char)
    (hne : us ≠ []) (hall : us.all isUpperC = true)
    (hu : isUpperC u = true) (hlc : isLowerC lc = true) :
    boundaryTok (us ++ u :: lc :: rest) = us :: boundaryTok (u :: lc :: rest) ∧
    toCamelCase "XMLHttpRequest" = "xmlHttpRequest" ∧
    toDotCase "XMLHttpRequest" = "xml.http.request" := by
  refine ⟨?_, by decide, by decide⟩
  obtain ⟨a, us', rfl⟩ := List.exists_cons_of_ne_nil hne
  have hall' : ∀ x ∈ a :: us', isUpperC x = true := List.all_eq_true.mp hall
  have htw : ((a :: us') ++ u :: lc :: rest).takeWhile isUpperC =
      (a :: us') ++ [u] := by
    rw [takeWhile_all_append _ _ hall', List.takeWhile_cons_of_pos hu,
      List.takeWhile_cons_of_neg (by simp [isUpperC_of_isLowerC hlc])]
  have hm : (((a :: us') ++ u :: lc :: rest).takeWhile isUpperC).length =
      us'.length + 2 := by
    rw [htw]; simp
  have htake : ((a :: us') ++ u :: lc :: rest).take (us'.length + 2 - 1) =
      a :: us' := by
    have : us'.length + 2 - 1 = (a :: us').length := by simp
    rw [this, List.take_left]
  have hdropm : ((a :: us') ++ u :: lc :: rest).drop (us'.length + 2) =
      lc :: rest := by
    have : us'.length + 2 = ((a :: us') ++ [u]).length := by simp
    rw [this, show (a :: us') ++ u :: lc :: rest =
      ((a :: us') ++ [u]) ++ lc :: rest by simp, List.drop_left]
  have hdrop : ((a :: us') ++ u :: lc :: rest).drop (us'.length + 2 - 1) =
      u :: lc :: rest := by
    have : us'.length + 2 - 1 = (a :: us').length := by simp
    rw [this, List.drop_left]
  have hlen : ((a :: us') ++ u :: lc :: rest).length =
      (us' ++ u :: lc :: rest).length + 1 := by simp
  rw [boundaryTok, hlen]
  simp only [List.cons_append, boundaryTokF, List.append_eq]
    at htw hm htake hdropm hdrop ⊢
  simp only [hm, hdropm, htake, hdrop, List.headD_cons]
  have hcond : (decide (2 ≤ us'.length + 2) && isLowerC lc) = true := by
    simp only [Bool.and_eq_true, decide_eq_true_eq, hlc, and_true]
    omega
  rw [if_pos hcond]
  congr 1
  have h1 : (u :: lc :: rest).length ≤ (us' ++ u :: lc :: rest).length := by
    simp
  exact boundaryTokF_fuel _ _ _ h1 (le_refl _)

/-- C3 (witness): the acronym rule evaluated on the decomposition
`"XMLHttp" ++ "tp"` of `"XMLHttpRequest"`'s head, with `us = "XML"`,
`u = 'H'`, `lc = 't'`. -/
theorem acronym_boundary_rule_witness :
    (['X', 'M', 'L'] : List Char) ≠ [] ∧
    (['X', 'M', 'L'] : List Char).all isUpperC = true ∧
    isUpperC 'H' = true ∧ isLowerC 't' = true ∧
    (boundaryTok (['X', 'M', 'L'] ++ 'H' :: 't' :: ['t', 'p']) =
       ['X', 'M', 'L'] :: boundaryTok ('H' :: 't' :: ['t', 'p']) ∧
     toCamelCase "XMLHttpRequest" = "xmlHttpRequest" ∧
     toDotCase "XMLHttpRequest" = "xml.http.request") :=
  ⟨by decide, by decide, by decide, by decide,
    acronym_boundary_rule ['X', 'M', 'L'] 'H' 't' ['t', 'p']
      (by decide) (by decide) (by decide) (by decide)⟩

/-- C4: the LowerCamel renderer lowercases the first token in full, renders
each later token with its first character uppercased and the rest
lowercased — except all-digit tokens, emitted verbatim — and concatenates
with no separator; in particular
`toCamelCase "item 42 count" = "item42Count"`. -/
theorem lowerCamel_renderer_spec (p : List Char) (ps : List (List Char)) :
    renderCamel (p :: ps) =
      p.map jsToLower ++
        joinSep [] (ps.map (fun t =>
          if t ≠ [] ∧ t.all isDigitC = true then t
          else
            match t with
            | [] => []
            | c :: cs => jsToUpper c :: cs.map jsToLower)) ∧
    toCamelCase "item 42 count" = "item42Count" := by
  refine ⟨?_, by decide⟩
  have hfun : renderCamelRest = fun t : List Char =>
      if t ≠ [] ∧ t.all isDigitC = true then t
      else
        match t with
        | [] => []
        | c :: cs => jsToUpper c :: cs.map jsToLower := by
    funext t
    simp only [renderCamelRest, isDigitsTok, capitalize]
    by_cases hd : (!t.isEmpty && t.all isDigitC) = true
    · rw [if_pos hd, if_pos]
      simp only [Bool.and_eq_true, Bool.not_eq_true', List.isEmpty_eq_false] at hd
      exact ⟨hd.1, hd.2⟩
    · rw [if_neg hd, if_neg]
      intro hc
      apply hd
      simp only [Bool.and_eq_true, Bool.not_eq_true', List.isEmpty_eq_false]
      exact ⟨hc.1, hc.2⟩
  simp only [renderCamel, hfun]

/-- C5: the DotCase renderer lowercases every token in full and joins the
tokens with a single `.` separator; in particular
`toDotCase "SCREEN_NAME" = "screen.name"` and
`toCamelCase "SCREEN_NAME" = "screenName"`. -/
theorem dotCase_renderer_spec (parts : List (List Char)) :
    renderDot parts = List.intercalate ['.'] (parts.map (List.map jsToLower)) ∧
    toDotCase "SCREEN_NAME" = "screen.name" ∧
    toCamelCase "SCREEN_NAME" = "screenName" := by
  refine ⟨?_, by decide, by decide⟩
  simp only [renderDot, joinSep_eq_intercalate]

/-- C6: for every string input, `toKebabCase` trims leading and trailing
whitespace, collapses each maximal run of whitespace characters to a
single `-` separator, lowercases every character, and leaves all other
(non-whitespace) characters in place — stated as equality with the
claim-side pipeline `collapseWs`; in particular
`toKebabCase "Hello   World" = "hello-world"`. -/
theorem kebab_pipeline_spec (s : String) :
    toKebabCase s = ((collapseWs (trimWs s.data)).map jsToLower).asString ∧
    toKebabCase "Hello   World" = "hello-world" := by
  refine ⟨?_, by decide⟩
  show (kebabChars s.data).asString = _
  unfold kebabChars
  congr 2
  exact joinSep_splitRuns_eq_collapseWs (trimWs s.data).length (trimWs s.data)
    (le_refl _) (trimWs_head_not_ws s.data) (trimWs_getLast_not_ws s.data)

/-- C7: for the empty string and for every whitespace-only input, all three
converters return the empty string, not an error. -/
theorem whitespace_only_input_empty (s : String) (h : s.data.all isWsC = true) :
    toCamelCase s = "" ∧ toDotCase s = "" ∧ toKebabCase s = "" := by
  have ht := trimWs_eq_nil h
  refine ⟨?_, ?_, ?_⟩ <;>
    simp [toCamelCase, toDotCase, toKebabCase, camelChars, dotChars,
      kebabChars, ht, splitRuns, splitRunsF, joinSep, List.asString]

/-- C7 (witness): the claim evaluated at the whitespace-only input `"   "`. -/
theorem whitespace_only_input_empty_witness :
    (String.data "   ").all isWsC = true ∧
    (toCamelCase "   " = "" ∧ toDotCase "   " = "" ∧ toKebabCase "   " = "") :=
  ⟨by decide, whitespace_only_input_empty "   " (by decide)⟩

/-- C8: separator runs at the start, at the end, or repeated in the middle
produce no empty tokens in the separator split, and
`toCamelCase "  multiple---separators_here " = "multipleSeparatorsHere"`. -/
theorem no_empty_tokens (l : List Char) :
    (splitRuns isAlnumC l).all (fun t => !t.isEmpty) = true ∧
    toCamelCase "  multiple---separators_here " = "multipleSeparatorsHere" :=
  ⟨splitRunsF_no_empty isAlnumC l.length l, by decide⟩

/-- C10: for every string input — including the empty string, separator-only
strings, and strings with non-ASCII characters — `toCamelCase` and
`toDotCase` are total (the Lean functions are total by construction),
return only ASCII letters and digits (plus `.` for `toDotCase`), and the
dynamically-typed call sites take the success branch, so no error branch
other than the non-string check is reachable. -/
theorem converters_total_ascii_output (s : String) :
    (toCamelCase s).data.all isAlnumC = true ∧
    (toDotCase s).data.all (fun c => isAlnumC c || decide (c = '.')) = true ∧
    toCamelCaseJS (JSValue.str s) = Except.ok (toCamelCase s) ∧
    toDotCaseJS (JSValue.str s) = Except.ok (toDotCase s) :=
  ⟨camelChars_all_alnum s.data, dotChars_all_dotok s.data, rfl, rfl⟩

/-- C9: re-applying `toCamelCase` to its own output is a no-op on the input
`"first name"`. -/
theorem camel_reapplication_noop :
    toCamelCase (toCamelCase "first name") = toCamelCase "first name" := by
  decide

end CaseConv

